import Mathlib

/-!
Verification of collection helpers and the generic hash-set component of the
unify4g utility library.

The typed slice helpers (`Intersect`, `Difference`, `Unique`, `Chunk`, `Pop`,
`Shift`) and the reflection-based helpers (`Contains_N`, `Difference_N`,
`Intersection`) are embedded from `collections.go`.  Go slices become Lean
lists; a Go `map[T]bool` used purely as a membership set is represented by the
list of keys it holds (stated at each use site).  The reflection helpers use
`reflect.DeepEqual`, which on values of a fixed comparable element type is
plain equality, so they are embedded over a type with decidable equality.

The generic `HashSet` type is exercised by `test/hashset_test.go` but its
implementation file is not part of the sources at hand, so it is modelled from
the specification (sections 3 and 4.1): an unordered collection of unique
comparable elements; `Add`/`Remove` mutate in place (explicit state passing
here); `Union`/`Intersection`/`Difference` construct and return a new set and
leave both operands unmodified.
-/

namespace Unify4g

variable {α : Type} [DecidableEq α]

/-- Loop body shared by `Unique` and the modelled `HashSet.Add`: the Go code
checks a membership map and appends the value when absent; the map always
holds exactly the elements already appended, so it is represented by the
accumulator itself. -/
def insertIfAbsent (acc : List α) (v : α) : List α :=
  if v ∈ acc then acc else acc ++ [v]

/-- Embeds `Unique` from `collections.go`: iterates over the slice, appending each
value to `uniqueValues` the first time it is seen (`uniqueMap` tracks exactly
the values already appended). -/
def Unique (slice : List α) : List α :=
  slice.foldl insertIfAbsent []

/-- Embeds `Intersect` from `collections.go` (typed): builds the membership map `set`
from `slice1` (so `set[item]` means `item ∈ slice1`), then iterates over
`slice2`, appending the items found in the map. -/
def Intersect (slice1 slice2 : List α) : List α :=
  slice2.foldl (fun result item => if item ∈ slice1 then result ++ [item] else result) []

/-- Embeds `Difference` from `collections.go` (typed): builds the membership map `set`
from `slice1` and never modifies it afterwards, then appends the items of
`slice2` absent from the map, then appends the items of `slice1` absent from
the map. -/
def Difference (slice1 slice2 : List α) : List α :=
  let afterSecondLoop :=
    slice2.foldl (fun result item => if item ∈ slice1 then result else result ++ [item]) []
  slice1.foldl (fun result item => if item ∈ slice1 then result else result ++ [item])
    afterSecondLoop

/-- Embeds `Contains_N` from `collections.go`: iterates over the collection and
returns true when some element is `reflect.DeepEqual` to the query
(`DeepEqual` is plain equality at a fixed comparable element type). -/
def Contains_N (collection : List α) (element : α) : Bool :=
  collection.any (fun x => x == element)

/-- Embeds `Difference_N` from `collections.go`: iterates over the first collection
in order and appends each item not contained (per `Contains_N`) in the second. -/
def Difference_N (collection1 collection2 : List α) : List α :=
  collection1.foldl
    (fun result item => if Contains_N collection2 item then result else result ++ [item]) []

/-- Embeds `Intersection` from `collections.go` (reflection-based): iterates over the
first collection in order and appends each item contained (per `Contains_N`)
in the second. -/
def Intersection (collection1 collection2 : List α) : List α :=
  collection1.foldl
    (fun result item => if Contains_N collection2 item then result ++ [item] else result) []

/-- Embeds `Pop` from `collections.go`: returns the slice unchanged when empty,
otherwise `slice[:len(slice)-1]`. -/
def Pop (slice : List α) : List α :=
  if slice.length = 0 then slice else slice.take (slice.length - 1)

/-- Embeds `Shift` from `collections.go`: returns the slice unchanged when empty,
otherwise `slice[1:]`. -/
def Shift (slice : List α) : List α :=
  if slice.length = 0 then slice else slice.drop 1

/-- The chunking loop of `Chunk` from `collections.go`: `i` advances by
`chunkSize` and each step appends `slice[i:min(i+chunkSize, len(slice))]`;
equivalently, each step takes the next `chunkSize` elements of what remains.
The `k = 0` guard is unreachable from `Chunk` (which requires `chunkSize > 0`)
and only serves termination. -/
def chunkGo (l : List α) (k : Nat) : List (List α) :=
  if h : l = [] ∨ k = 0 then []
  else l.take k :: chunkGo (l.drop k) k
termination_by l.length
decreasing_by
  push_neg at h
  have hl : 0 < l.length := List.length_pos.mpr h.1
  simp only [List.length_drop]
  omega

/-- Embeds `Chunk` from `collections.go`: returns nil (`none`) when `chunkSize <= 0`,
otherwise the list of chunks produced by the loop. -/
def Chunk (slice : List α) (chunkSize : Int) : Option (List (List α)) :=
  if chunkSize ≤ 0 then none else some (chunkGo slice chunkSize.toNat)

/-- Specification of deduplication in order of first occurrence, written from
the claim's words (to be compared with `Unique` embedded from the source):
keep the head, then recursively deduplicate the tail with the head removed. -/
def uniqueFirstOccurrences : List α → List α
  | [] => []
  | x :: xs => x :: uniqueFirstOccurrences (xs.filter (fun y => decide (y ≠ x)))
termination_by l => l.length
decreasing_by
  have := List.length_filter_le (fun y => decide (y ≠ x)) xs
  simp only [List.length_cons]
  omega

/-! ### The HashSet component, modelled from the spec -/

/-- Modelled from the spec: the generic hash-set type exercised by
`test/hashset_test.go`, whose implementation file is not among the sources at
hand.  Per spec section 3, the backing storage is a mapping from element value
to a presence marker whose keys are unique by construction; it is represented
here by its list of keys together with the no-duplicates invariant. -/
structure HashSet (β : Type) where
  elems : List β
  nodup : elems.Nodup

namespace HashSet

/-- Modelled from the spec: the empty set. -/
def empty : HashSet α := ⟨[], List.nodup_nil⟩

/-- Modelled from the spec: `Add` inserts the element, a no-op with respect to
size when the element is already present. -/
def Add (s : HashSet α) (e : α) : HashSet α :=
  ⟨insertIfAbsent s.elems e, by
    unfold insertIfAbsent
    by_cases hv : e ∈ s.elems
    · simpa [hv] using s.nodup
    · rw [if_neg hv, List.nodup_append]
      refine ⟨s.nodup, List.nodup_singleton e, ?_⟩
      intro a ha hav
      rw [List.mem_singleton] at hav
      exact hv (hav ▸ ha)⟩

/-- Modelled from the spec: creation from zero or more initial elements,
collapsing duplicates (equivalent to adding each in order). -/
def NewHashSet (init : List α) : HashSet α :=
  init.foldl Add empty

/-- Modelled from the spec: `Contains` is true iff the element is present. -/
def Contains (s : HashSet α) (e : α) : Bool :=
  decide (e ∈ s.elems)

/-- Modelled from the spec: `Size` is the number of distinct elements. -/
def Size (s : HashSet α) : Nat :=
  s.elems.length

/-- Modelled from the spec: `Remove` deletes the element, a no-op when
absent. -/
def Remove (s : HashSet α) (e : α) : HashSet α :=
  ⟨s.elems.filter (fun y => decide (y ≠ e)), s.nodup.filter _⟩

/-- Modelled from the spec: `Union` constructs and returns a new set
containing every element present in either operand. -/
def Union (A B : HashSet α) : HashSet α :=
  ⟨A.elems ++ B.elems.filter (fun y => decide (y ∉ A.elems)), by
    rw [List.nodup_append]
    refine ⟨A.nodup, B.nodup.filter _, ?_⟩
    intro a ha haf
    rw [List.mem_filter, decide_eq_true_eq] at haf
    exact haf.2 ha⟩

/-- Modelled from the spec: `Intersection` constructs and returns a new set
containing only the elements present in both operands. -/
def Intersection (A B : HashSet α) : HashSet α :=
  ⟨A.elems.filter (fun y => decide (y ∈ B.elems)), A.nodup.filter _⟩

/-- Modelled from the spec: `Difference` constructs and returns a new set
containing the elements present in the receiver but absent from the other
operand. -/
def Difference (A B : HashSet α) : HashSet α :=
  ⟨A.elems.filter (fun y => decide (y ∉ B.elems)), A.nodup.filter _⟩

end HashSet

/-! Store model for the frame property of the algebra operations. -/

/-- Modelled from the spec: set-algebra operations "construct and return a new
Set instance, leaving both operands unmodified", with no aliasing of backing
storage.  To make this frame property expressible, Set instances live in an
explicit store (a list of sets addressed by index); `unionAlloc` reads its
operands from the store, appends the freshly constructed union, and returns
the new store together with the index of the result. -/
def unionAlloc (st : List (HashSet α)) (i j : Nat) : List (HashSet α) × Nat :=
  (st ++ [HashSet.Union (st.getD i HashSet.empty) (st.getD j HashSet.empty)], st.length)

/-- Modelled from the spec: store-level `Intersection`, as `unionAlloc`. -/
def interAlloc (st : List (HashSet α)) (i j : Nat) : List (HashSet α) × Nat :=
  (st ++ [HashSet.Intersection (st.getD i HashSet.empty) (st.getD j HashSet.empty)], st.length)

/-- Modelled from the spec: store-level `Difference`, as `unionAlloc`. -/
def diffAlloc (st : List (HashSet α)) (i j : Nat) : List (HashSet α) × Nat :=
  (st ++ [HashSet.Difference (st.getD i HashSet.empty) (st.getD j HashSet.empty)], st.length)

/-- Sample sets and store for the frame-property witness. -/
def sampleSetA : HashSet ℤ := HashSet.NewHashSet [1]

def sampleSetB : HashSet ℤ := HashSet.NewHashSet [2, 3]

def sampleStore : List (HashSet ℤ) := [sampleSetA, sampleSetB]

/-! ### Generic foldl-append lemmas for the loop shapes above -/

theorem foldl_append_if (p : α → Prop) [DecidablePred p] (l acc : List α) :
    l.foldl (fun result item => if p item then result ++ [item] else result) acc
      = acc ++ l.filter (fun item => decide (p item)) := by
  induction l generalizing acc with
  | nil => simp
  | cons v vs ih =>
    by_cases hv : p v <;> simp [List.foldl_cons, hv, ih, List.filter_cons]

theorem foldl_skip_if (p : α → Prop) [DecidablePred p] (l acc : List α) :
    l.foldl (fun result item => if p item then result else result ++ [item]) acc
      = acc ++ l.filter (fun item => decide (¬ p item)) := by
  induction l generalizing acc with
  | nil => simp
  | cons v vs ih =>
    by_cases hv : p v <;> simp [List.foldl_cons, hv, ih, List.filter_cons]

theorem Intersect_eq_filter (slice1 slice2 : List α) :
    Intersect slice1 slice2 = slice2.filter (fun item => decide (item ∈ slice1)) := by
  unfold Intersect
  simpa using foldl_append_if (fun item => item ∈ slice1) slice2 []

theorem Difference_eq_filter (slice1 slice2 : List α) :
    Difference slice1 slice2 = slice2.filter (fun item => decide (item ∉ slice1)) := by
  unfold Difference
  rw [foldl_skip_if (fun item => item ∈ slice1) slice2 [],
    foldl_skip_if (fun item => item ∈ slice1) slice1]
  simp only [List.nil_append]
  have hdead : slice1.filter (fun item => decide (item ∉ slice1)) = [] := by
    rw [List.filter_eq_nil]
    intro a ha
    simp [ha]
  rw [hdead, List.append_nil]

theorem Contains_N_eq_true_iff (collection : List α) (element : α) :
    Contains_N collection element = true ↔ element ∈ collection := by
  unfold Contains_N
  simp [List.any_eq_true]

theorem Difference_N_eq_filter (collection1 collection2 : List α) :
    Difference_N collection1 collection2
      = collection1.filter (fun item => decide (item ∉ collection2)) := by
  unfold Difference_N
  rw [foldl_skip_if (fun item => Contains_N collection2 item = true) collection1 []]
  simp only [List.nil_append]
  apply List.filter_congr
  intro a _
  simp [Contains_N_eq_true_iff]

theorem Intersection_eq_filter (collection1 collection2 : List α) :
    Intersection collection1 collection2
      = collection1.filter (fun item => decide (item ∈ collection2)) := by
  unfold Intersection
  rw [foldl_append_if (fun item => Contains_N collection2 item = true) collection1 []]
  simp only [List.nil_append]
  apply List.filter_congr
  intro a _
  simp [Contains_N_eq_true_iff]

/-! ### Order-of-first-occurrence deduplication -/

theorem foldl_insertIfAbsent (l : List α) : ∀ acc : List α,
    l.foldl insertIfAbsent acc
      = acc ++ uniqueFirstOccurrences (l.filter (fun y => decide (y ∉ acc))) := by
  induction l with
  | nil => intro acc; simp [uniqueFirstOccurrences]
  | cons v vs ih =>
    intro acc
    rw [List.foldl_cons]
    by_cases hv : v ∈ acc
    · simp only [insertIfAbsent, if_pos hv]
      rw [ih acc, List.filter_cons]
      simp [hv]
    · simp only [insertIfAbsent, if_neg hv]
      rw [ih (acc ++ [v])]
      have hpred : vs.filter (fun y => decide (y ∉ acc ++ [v]))
          = (vs.filter (fun y => decide (y ∉ acc))).filter (fun y => decide (y ≠ v)) := by
        rw [List.filter_filter]
        apply List.filter_congr
        intro y _
        by_cases hy1 : y ∈ acc <;> by_cases hy2 : y = v <;> simp [hy1, hy2]
      rw [hpred]
      have hcons : ((v :: vs).filter (fun y => decide (y ∉ acc)))
          = v :: vs.filter (fun y => decide (y ∉ acc)) := by
        simp [hv]
      rw [hcons, uniqueFirstOccurrences]
      simp [List.append_assoc]

theorem Unique_eq_uniqueFirstOccurrences (l : List α) :
    Unique l = uniqueFirstOccurrences l := by
  unfold Unique
  rw [foldl_insertIfAbsent]
  simp only [List.nil_append]
  congr 1
  apply List.filter_eq_self.mpr
  intro a _
  simp

theorem mem_uniqueFirstOccurrences (l : List α) (x : α) :
    x ∈ uniqueFirstOccurrences l ↔ x ∈ l := by
  induction l using uniqueFirstOccurrences.induct with
  | case1 => simp [uniqueFirstOccurrences]
  | case2 a xs ih =>
    rw [uniqueFirstOccurrences]
    simp only [List.mem_cons, ih, List.mem_filter, decide_eq_true_eq]
    by_cases hx : x = a <;> simp [hx]

theorem nodup_uniqueFirstOccurrences (l : List α) :
    (uniqueFirstOccurrences l).Nodup := by
  induction l using uniqueFirstOccurrences.induct with
  | case1 => simp [uniqueFirstOccurrences]
  | case2 a xs ih =>
    rw [uniqueFirstOccurrences]
    refine List.nodup_cons.mpr ⟨?_, ih⟩
    rw [mem_uniqueFirstOccurrences]
    simp

theorem uniqueFirstOccurrences_eq_self (l : List α) (h : l.Nodup) :
    uniqueFirstOccurrences l = l := by
  induction l using uniqueFirstOccurrences.induct with
  | case1 => simp [uniqueFirstOccurrences]
  | case2 a xs ih =>
    rw [uniqueFirstOccurrences]
    rcases List.nodup_cons.mp h with ⟨ha, hxs⟩
    have hfilter : xs.filter (fun y => decide (y ≠ a)) = xs := by
      apply List.filter_eq_self.mpr
      intro y hy
      have : y ≠ a := fun hya => ha (hya ▸ hy)
      simp [this]
    rw [hfilter] at ih ⊢
    rw [ih hxs]

/-! ### Claim theorems about the slice helpers -/

/-- C1: the claim states that the typed `Difference(a, b)` returns exactly the
elements unique to either side.  The code's own documentation promises
`Difference([1,2,3,4], [3,4,5,6]) = [1,2,5,6]`, but the third loop of the
implementation re-tests membership in the very map that was built from all of
`slice1`, so it never appends anything: the result is `[5,6]`, dropping the
elements unique to the first slice (here `1`, which occurs in exactly one of
the two slices yet is absent from the result). -/
theorem Difference_drops_left_unique_elements :
    Difference ([1, 2, 3, 4] : List ℤ) [3, 4, 5, 6] = [5, 6] ∧
    Difference ([1, 2, 3, 4] : List ℤ) [3, 4, 5, 6] ≠ [1, 2, 5, 6] ∧
    (1 : ℤ) ∈ ([1, 2, 3, 4] : List ℤ) ∧ (1 : ℤ) ∉ ([3, 4, 5, 6] : List ℤ) ∧
    (1 : ℤ) ∉ Difference ([1, 2, 3, 4] : List ℤ) [3, 4, 5, 6] := by decide

/-- C3: `Difference_N(c1, c2)` returns exactly those elements of `c1` not
contained in `c2` (membership by deep equality), in the order they occur in
`c1` — that is, it is the filter of `c1` by non-membership in `c2`. -/
theorem Difference_N_spec (c1 c2 : List α) :
    Difference_N c1 c2 = c1.filter (fun item => decide (item ∉ c2)) ∧
    ∀ x, x ∈ Difference_N c1 c2 ↔ x ∈ c1 ∧ x ∉ c2 := by
  refine ⟨Difference_N_eq_filter c1 c2, ?_⟩
  intro x
  rw [Difference_N_eq_filter]
  simp [List.mem_filter]

/-- C4: membership in the intersection is commutative and agrees with
conjunction of memberships, both for the typed `Intersect` (which iterates the
second operand against a membership map of the first) and for the
reflection-based `Intersection` (which iterates the first operand against
`Contains_N` membership in the second). -/
theorem Intersect_commutative_membership (A B : List α) (x : α) :
    (x ∈ Intersect A B ↔ x ∈ Intersect B A) ∧
    (x ∈ Intersect A B ↔ x ∈ A ∧ x ∈ B) ∧
    (x ∈ Intersection A B ↔ x ∈ Intersection B A) ∧
    (x ∈ Intersection A B ↔ x ∈ A ∧ x ∈ B) := by
  have h1 : ∀ C D : List α, x ∈ Intersect C D ↔ x ∈ C ∧ x ∈ D := by
    intro C D
    rw [Intersect_eq_filter]
    simp only [List.mem_filter, decide_eq_true_eq]
    tauto
  have h2 : ∀ C D : List α, x ∈ Intersection C D ↔ x ∈ C ∧ x ∈ D := by
    intro C D
    rw [Intersection_eq_filter]
    simp only [List.mem_filter, decide_eq_true_eq]
  refine ⟨?_, h1 A B, ?_, h2 A B⟩
  · rw [h1, h1]; tauto
  · rw [h2, h2]; tauto

/-- C9: `Unique` produces a duplicate-free list containing exactly the
elements of the input, in order of first occurrence, and is idempotent. -/
theorem Unique_spec (l : List α) :
    (Unique l).Nodup ∧
    (∀ x, x ∈ Unique l ↔ x ∈ l) ∧
    Unique (Unique l) = Unique l ∧
    Unique l = uniqueFirstOccurrences l := by
  have he := Unique_eq_uniqueFirstOccurrences l
  have hnd : (Unique l).Nodup := he ▸ nodup_uniqueFirstOccurrences l
  refine ⟨hnd, ?_, ?_, he⟩
  · intro x
    rw [he]
    exact mem_uniqueFirstOccurrences l x
  · rw [Unique_eq_uniqueFirstOccurrences (Unique l)]
    exact uniqueFirstOccurrences_eq_self (Unique l) hnd

/-- C10: `Pop` and `Shift` are total: on the empty slice each returns the
empty slice unchanged; on a non-empty slice `Pop` returns all elements except
the last and `Shift` all elements except the first. -/
theorem Pop_Shift_total (l : List α) :
    Pop ([] : List α) = [] ∧ Shift ([] : List α) = [] ∧
    (l ≠ [] → Pop l = l.dropLast ∧ Shift l = l.tail) := by
  refine ⟨rfl, rfl, fun hl => ⟨?_, ?_⟩⟩
  · unfold Pop
    rw [if_neg (by simpa using List.length_pos.mpr hl |>.ne')]
    exact (List.dropLast_eq_take l).symm
  · unfold Shift
    rw [if_neg (by simpa using List.length_pos.mpr hl |>.ne')]
    exact List.drop_one l

/-- Witness for `Pop_Shift_total` at the non-empty slice `[1, 2, 3]`. -/
theorem Pop_Shift_total_witness :
    ([1, 2, 3] : List ℤ) ≠ [] ∧
    (Pop ([1, 2, 3] : List ℤ) = ([1, 2, 3] : List ℤ).dropLast ∧
      Shift ([1, 2, 3] : List ℤ) = ([1, 2, 3] : List ℤ).tail) :=
  ⟨by decide, (Pop_Shift_total ([1, 2, 3] : List ℤ)).2.2 (by decide)⟩



/-! ### Claim theorems about the HashSet component -/

/-- C2: every element of `A.Difference(B)` is in A and no element of it is in
B. -/
theorem HashSet_Difference_spec (A B : HashSet α) (x : α)
    (h : HashSet.Contains (HashSet.Difference A B) x = true) :
    HashSet.Contains A x = true ∧ HashSet.Contains B x = false := by
  unfold HashSet.Contains HashSet.Difference at h
  unfold HashSet.Contains
  simp only [decide_eq_true_eq, List.mem_filter] at h
  rcases h with ⟨hA, hB⟩
  exact ⟨by simpa using hA, by simpa using hB⟩

/-- Witness for `HashSet_Difference_spec` at `A = {1,2,4}`, `B = {2,3}`,
`x = 1`. -/
theorem HashSet_Difference_spec_witness :
    HashSet.Contains
        (HashSet.Difference (HashSet.NewHashSet ([1, 2, 4] : List ℤ))
          (HashSet.NewHashSet [2, 3])) 1 = true ∧
    (HashSet.Contains (HashSet.NewHashSet ([1, 2, 4] : List ℤ)) 1 = true ∧
      HashSet.Contains (HashSet.NewHashSet ([2, 3] : List ℤ)) 1 = false) :=
  ⟨by decide,
    HashSet_Difference_spec (HashSet.NewHashSet [1, 2, 4]) (HashSet.NewHashSet [2, 3]) 1
      (by decide)⟩

theorem length_filter_add_length_filter_not (l : List α) (p : α → Bool) :
    (l.filter p).length + (l.filter (fun a => !(p a))).length = l.length := by
  induction l with
  | nil => rfl
  | cons a t ih =>
    cases hp : p a <;> simp [List.filter_cons, hp] <;> omega

theorem length_filter_mem_comm (A B : List α) (hA : A.Nodup) (hB : B.Nodup) :
    (A.filter (fun y => decide (y ∈ B))).length
      = (B.filter (fun y => decide (y ∈ A))).length := by
  have h1 : (A.filter (fun y => decide (y ∈ B))).toFinset = A.toFinset ∩ B.toFinset := by
    ext y
    simp [List.mem_filter]
  have h2 : (B.filter (fun y => decide (y ∈ A))).toFinset = B.toFinset ∩ A.toFinset := by
    ext y
    simp [List.mem_filter]
  have c1 := List.toFinset_card_of_nodup (hA.filter (fun y => decide (y ∈ B)))
  have c2 := List.toFinset_card_of_nodup (hB.filter (fun y => decide (y ∈ A)))
  rw [← c1, ← c2, h1, h2, Finset.inter_comm]

/-- C5: for all sets A and B, `Size(A.Union(B)) = Size(A) + Size(B) -
Size(A.Intersection(B))` (inclusion-exclusion), and in the concrete scenario
`A = {1,2,4}`, `B = {2,3}` the union has size 4 and contains 1, 2, 3 and 4,
while the intersection has size 1 and contains 2. -/
theorem HashSet_inclusion_exclusion :
    (∀ A B : HashSet α,
        HashSet.Size (HashSet.Union A B)
          = HashSet.Size A + HashSet.Size B - HashSet.Size (HashSet.Intersection A B)) ∧
    (HashSet.Size (HashSet.Union (HashSet.NewHashSet ([1, 2, 4] : List ℤ))
          (HashSet.NewHashSet [2, 3])) = 4 ∧
      HashSet.Contains (HashSet.Union (HashSet.NewHashSet ([1, 2, 4] : List ℤ))
          (HashSet.NewHashSet [2, 3])) 1 = true ∧
      HashSet.Contains (HashSet.Union (HashSet.NewHashSet ([1, 2, 4] : List ℤ))
          (HashSet.NewHashSet [2, 3])) 2 = true ∧
      HashSet.Contains (HashSet.Union (HashSet.NewHashSet ([1, 2, 4] : List ℤ))
          (HashSet.NewHashSet [2, 3])) 3 = true ∧
      HashSet.Contains (HashSet.Union (HashSet.NewHashSet ([1, 2, 4] : List ℤ))
          (HashSet.NewHashSet [2, 3])) 4 = true ∧
      HashSet.Size (HashSet.Intersection (HashSet.NewHashSet ([1, 2, 4] : List ℤ))
          (HashSet.NewHashSet [2, 3])) = 1 ∧
      HashSet.Contains (HashSet.Intersection (HashSet.NewHashSet ([1, 2, 4] : List ℤ))
          (HashSet.NewHashSet [2, 3])) 2 = true) := by
  constructor
  · intro A B
    have hunion : HashSet.Size (HashSet.Union A B)
        = A.elems.length + (B.elems.filter (fun y => decide (y ∉ A.elems))).length := by
      simp [HashSet.Size, HashSet.Union]
    have hsplit := length_filter_add_length_filter_not B.elems
      (fun y => decide (y ∈ A.elems))
    have hcongr : B.elems.filter (fun a => !(decide (a ∈ A.elems)))
        = B.elems.filter (fun y => decide (y ∉ A.elems)) := by
      apply List.filter_congr
      intro y _
      simp
    rw [hcongr] at hsplit
    have hcomm := length_filter_mem_comm A.elems B.elems A.nodup B.nodup
    have hinter : HashSet.Size (HashSet.Intersection A B)
        = (A.elems.filter (fun y => decide (y ∈ B.elems))).length := rfl
    have hsizeA : HashSet.Size A = A.elems.length := rfl
    have hsizeB : HashSet.Size B = B.elems.length := rfl
    omega
  · refine ⟨by decide, by decide, by decide, by decide, by decide, by decide, by decide⟩


/-- C6: `Union`, `Intersection` and `Difference` construct and return a new
Set instance and never mutate either operand: after any of the three calls the
operand slots of the store still hold exactly the same sets (hence unchanged
`Size` and membership), and the freshly allocated slot holds the result. -/
theorem HashSet_algebra_preserves_operands (st : List (HashSet α)) (i j : Nat)
    (hi : i < st.length) (hj : j < st.length) :
    ((unionAlloc st i j).1.getD i HashSet.empty = st.getD i HashSet.empty ∧
      (unionAlloc st i j).1.getD j HashSet.empty = st.getD j HashSet.empty ∧
      (unionAlloc st i j).1.getD (unionAlloc st i j).2 HashSet.empty
        = HashSet.Union (st.getD i HashSet.empty) (st.getD j HashSet.empty)) ∧
    ((interAlloc st i j).1.getD i HashSet.empty = st.getD i HashSet.empty ∧
      (interAlloc st i j).1.getD j HashSet.empty = st.getD j HashSet.empty ∧
      (interAlloc st i j).1.getD (interAlloc st i j).2 HashSet.empty
        = HashSet.Intersection (st.getD i HashSet.empty) (st.getD j HashSet.empty)) ∧
    ((diffAlloc st i j).1.getD i HashSet.empty = st.getD i HashSet.empty ∧
      (diffAlloc st i j).1.getD j HashSet.empty = st.getD j HashSet.empty ∧
      (diffAlloc st i j).1.getD (diffAlloc st i j).2 HashSet.empty
        = HashSet.Difference (st.getD i HashSet.empty) (st.getD j HashSet.empty)) := by
  have hpres : ∀ (x : HashSet α) (k : Nat), k < st.length →
      (st ++ [x]).getD k HashSet.empty = st.getD k HashSet.empty := by
    intro x k hk
    exact List.getD_append st [x] HashSet.empty k hk
  have hnew : ∀ x : HashSet α, (st ++ [x]).getD st.length HashSet.empty = x := by
    intro x
    rw [List.getD_append_right st [x] HashSet.empty st.length le_rfl]
    simp
  exact ⟨⟨hpres _ i hi, hpres _ j hj, hnew _⟩,
    ⟨hpres _ i hi, hpres _ j hj, hnew _⟩,
    ⟨hpres _ i hi, hpres _ j hj, hnew _⟩⟩


/-- Witness for `HashSet_algebra_preserves_operands` on a two-set store. -/
theorem HashSet_algebra_preserves_operands_witness :
    (0 < sampleStore.length ∧ 1 < sampleStore.length) ∧
    (((unionAlloc sampleStore 0 1).1.getD 0 HashSet.empty
          = sampleStore.getD 0 HashSet.empty ∧
        (unionAlloc sampleStore 0 1).1.getD 1 HashSet.empty
          = sampleStore.getD 1 HashSet.empty ∧
        (unionAlloc sampleStore 0 1).1.getD (unionAlloc sampleStore 0 1).2 HashSet.empty
          = HashSet.Union (sampleStore.getD 0 HashSet.empty)
              (sampleStore.getD 1 HashSet.empty)) ∧
      ((interAlloc sampleStore 0 1).1.getD 0 HashSet.empty
          = sampleStore.getD 0 HashSet.empty ∧
        (interAlloc sampleStore 0 1).1.getD 1 HashSet.empty
          = sampleStore.getD 1 HashSet.empty ∧
        (interAlloc sampleStore 0 1).1.getD (interAlloc sampleStore 0 1).2 HashSet.empty
          = HashSet.Intersection (sampleStore.getD 0 HashSet.empty)
              (sampleStore.getD 1 HashSet.empty)) ∧
      ((diffAlloc sampleStore 0 1).1.getD 0 HashSet.empty
          = sampleStore.getD 0 HashSet.empty ∧
        (diffAlloc sampleStore 0 1).1.getD 1 HashSet.empty
          = sampleStore.getD 1 HashSet.empty ∧
        (diffAlloc sampleStore 0 1).1.getD (diffAlloc sampleStore 0 1).2 HashSet.empty
          = HashSet.Difference (sampleStore.getD 0 HashSet.empty)
              (sampleStore.getD 1 HashSet.empty))) :=
  ⟨⟨by decide, by decide⟩,
    HashSet_algebra_preserves_operands sampleStore 0 1 (by decide) (by decide)⟩

/-- C7: after `Add`, `Contains` holds; adding an element to a set that already
contains it leaves the size unchanged, so repeating an `Add` is a no-op with
respect to size. -/
theorem HashSet_Add_spec (S : HashSet α) (e : α) :
    HashSet.Contains (HashSet.Add S e) e = true ∧
    (HashSet.Contains S e = true → HashSet.Size (HashSet.Add S e) = HashSet.Size S) ∧
    HashSet.Size (HashSet.Add (HashSet.Add S e) e) = HashSet.Size (HashSet.Add S e) := by
  have hmem : ∀ s : HashSet α, e ∈ (HashSet.Add s e).elems := by
    intro s
    unfold HashSet.Add insertIfAbsent
    by_cases he : e ∈ s.elems <;> simp [he]
  have hsize : ∀ s : HashSet α, e ∈ s.elems →
      HashSet.Size (HashSet.Add s e) = HashSet.Size s := by
    intro s he
    unfold HashSet.Size HashSet.Add insertIfAbsent
    simp [he]
  refine ⟨?_, ?_, hsize (HashSet.Add S e) (hmem S)⟩
  · unfold HashSet.Contains
    simpa using hmem S
  · intro h
    unfold HashSet.Contains at h
    rw [decide_eq_true_eq] at h
    exact hsize S h

/-- Witness for `HashSet_Add_spec` at `S = {1,2}`, `e = 1`. -/
theorem HashSet_Add_spec_witness :
    HashSet.Contains (HashSet.NewHashSet ([1, 2] : List ℤ)) 1 = true ∧
    (HashSet.Contains (HashSet.Add (HashSet.NewHashSet ([1, 2] : List ℤ)) 1) 1 = true ∧
      (HashSet.Contains (HashSet.NewHashSet ([1, 2] : List ℤ)) 1 = true →
        HashSet.Size (HashSet.Add (HashSet.NewHashSet ([1, 2] : List ℤ)) 1)
          = HashSet.Size (HashSet.NewHashSet ([1, 2] : List ℤ))) ∧
      HashSet.Size (HashSet.Add (HashSet.Add (HashSet.NewHashSet ([1, 2] : List ℤ)) 1) 1)
        = HashSet.Size (HashSet.Add (HashSet.NewHashSet ([1, 2] : List ℤ)) 1)) :=
  ⟨by decide, HashSet_Add_spec (HashSet.NewHashSet [1, 2]) 1⟩

/-! ### Chunk -/

theorem chunkGo_nil (k : Nat) : chunkGo ([] : List α) k = [] := by
  rw [chunkGo]
  simp

theorem chunkGo_cons (l : List α) (k : Nat) (hl : l ≠ []) (hk : k ≠ 0) :
    chunkGo l k = l.take k :: chunkGo (l.drop k) k := by
  rw [chunkGo]
  rw [dif_neg]
  push_neg
  exact ⟨hl, hk⟩

theorem chunkGo_ne_nil (l : List α) (k : Nat) (hl : l ≠ []) (hk : k ≠ 0) :
    chunkGo l k ≠ [] := by
  rw [chunkGo_cons l k hl hk]
  simp

theorem chunkGo_join (l : List α) (k : Nat) : k ≠ 0 → (chunkGo l k).join = l := by
  induction l, k using chunkGo.induct with
  | case1 l k h =>
    intro hk
    rcases h with rfl | rfl
    · simp [chunkGo_nil]
    · exact absurd rfl hk
  | case2 l k h ih =>
    intro hk
    push_neg at h
    rw [chunkGo_cons l k h.1 h.2]
    have hstep : (List.take k l :: chunkGo (List.drop k l) k).join
        = List.take k l ++ (chunkGo (List.drop k l) k).join := rfl
    rw [hstep, ih hk]
    exact List.take_append_drop k l

theorem chunkGo_lengths (l : List α) (k : Nat) : k ≠ 0 →
    (∀ c ∈ (chunkGo l k).dropLast, c.length = k) ∧
    (∀ c, (chunkGo l k).getLast? = some c → 1 ≤ c.length ∧ c.length ≤ k) := by
  induction l, k using chunkGo.induct with
  | case1 l k h =>
    intro hk
    rcases h with rfl | rfl
    · simp [chunkGo_nil]
    · exact absurd rfl hk
  | case2 l k h ih =>
    intro hk
    push_neg at h
    rcases h with ⟨hl, hk0⟩
    rw [chunkGo_cons l k hl hk0]
    by_cases hrest : l.drop k = []
    · have hlen : l.length ≤ k := by
        have := List.drop_eq_nil_iff_le.mp hrest
        omega
      rw [hrest, chunkGo_nil]
      constructor
      · intro c hc
        simp at hc
      · intro c hc
        simp only [List.getLast?_singleton, Option.some.injEq] at hc
        subst hc
        have htake : (l.take k).length = l.length := by
          rw [List.length_take]
          omega
        have hpos : 0 < l.length := List.length_pos.mpr hl
        omega
    · have hchunks : chunkGo (l.drop k) k ≠ [] := chunkGo_ne_nil _ _ hrest hk0
      have hklt : k < l.length := by
        have := List.drop_eq_nil_iff_le.not.mp hrest
        omega
      have htake : (l.take k).length = k := by
        rw [List.length_take]
        omega
      obtain ⟨ih1, ih2⟩ := ih hk0
      constructor
      · intro c hc
        rw [List.dropLast_cons_of_ne_nil hchunks] at hc
        rcases List.mem_cons.mp hc with rfl | hc
        · exact htake
        · exact ih1 c hc
      · intro c hc
        obtain ⟨r, rs, hrr⟩ := List.exists_cons_of_ne_nil hchunks
        rw [hrr, List.getLast?_cons_cons] at hc
        exact ih2 c (by rw [hrr]; exact hc)

/-- C8: `Chunk` returns nil when `chunkSize <= 0`; when `chunkSize > 0` the
returned chunks concatenate to the input slice, every chunk except possibly
the last has length exactly `chunkSize`, and the last chunk (when the slice is
non-empty) has length between 1 and `chunkSize`. -/
theorem Chunk_spec (l : List α) (chunkSize : Int) :
    (chunkSize ≤ 0 → Chunk l chunkSize = none) ∧
    (0 < chunkSize → ∀ cs, Chunk l chunkSize = some cs →
      cs.join = l ∧
      (∀ c ∈ cs.dropLast, c.length = chunkSize.toNat) ∧
      (∀ c, cs.getLast? = some c → 1 ≤ c.length ∧ c.length ≤ chunkSize.toNat)) := by
  constructor
  · intro hk
    simp [Chunk, hk]
  · intro hk cs hcs
    have hk' : ¬ chunkSize ≤ 0 := by omega
    rw [Chunk, if_neg hk'] at hcs
    rw [Option.some.injEq] at hcs
    subst hcs
    have hk0 : chunkSize.toNat ≠ 0 := by omega
    exact ⟨chunkGo_join l chunkSize.toNat hk0, (chunkGo_lengths l chunkSize.toNat hk0).1,
      (chunkGo_lengths l chunkSize.toNat hk0).2⟩

/-- Witness for `Chunk_spec`: chunking `[1,2,3]` with size -1 yields nil, and
with size 2 yields `[[1,2],[3]]`, whose properties follow from the theorem. -/
theorem Chunk_spec_witness :
    Chunk ([1, 2, 3] : List ℤ) (-1) = none ∧
    (([[1, 2], [3]] : List (List ℤ)).join = [1, 2, 3] ∧
      (∀ c ∈ ([[1, 2], [3]] : List (List ℤ)).dropLast, c.length = (2 : Int).toNat) ∧
      (∀ c, ([[1, 2], [3]] : List (List ℤ)).getLast? = some c →
        1 ≤ c.length ∧ c.length ≤ (2 : Int).toNat)) :=
  ⟨(Chunk_spec ([1, 2, 3] : List ℤ) (-1)).1 (by decide),
    (Chunk_spec ([1, 2, 3] : List ℤ) 2).2 (by decide) [[1, 2], [3]]
      (by rw [Chunk, if_neg (by decide)]
          rw [chunkGo_cons _ _ (by decide) (by decide),
            chunkGo_cons _ _ (by decide) (by decide)]
          rw [show List.drop (2 : Int).toNat (List.drop (2 : Int).toNat [1, 2, 3])
              = ([] : List ℤ) by rfl]
          rw [chunkGo_nil]
          rfl)⟩

end Unify4g
